import Mathlib

/-!
Shallow embedding of the word-targeting and entity-lifecycle engine of the
zpype repository (src/zpype.py), together with theorems settling the claims
about it.  Python strings are modelled as `List Char`, Python lists as Lean
lists, random draws as explicitly supplied streams, exceptions as `Option`,
and the pygame sprite/rect machinery as explicit state.
-/

namespace ZPype

/-- A word is the Python string: an ordered list of characters. -/
abbrev Word := List Char

/-- Python `word.startswith(c)` for a single-character `c` (the typed
`event.unicode` is guarded non-empty before reaching `do_typed`). -/
def startsWithChar (w : Word) (c : Char) : Bool :=
  w.head? = some c

/-- `Game.find`: return the first active word starting with `letter`
(Python returns `None` implicitly when no word matches). -/
def findWord (active : List Word) (c : Char) : Option Word :=
  active.find? (fun w => startsWithChar w c)

/-- `Game.hit_word`: `index = active_words.index(word)` locates the first
occurrence, which is replaced by `word[1:]`; when that is empty the entry is
popped and `None` returned, otherwise the stripped word is returned.
The outer `none` models the `ValueError` raised by `list.index` when `word`
is not an active word. -/
def hitWord : List Word → Word → Option (List Word × Option Word)
  | [], _ => none
  | x :: xs, w =>
    if x = w then
      let stripped := x.drop 1
      if stripped = [] then some (xs, none) else some (stripped :: xs, some stripped)
    else
      match hitWord xs w with
      | none => none
      | some (ys, r) => some (x :: ys, r)

/-- `GameState.do_typed` restricted to the resolver data it mutates: the
active word list of `Game` and the lock `typing_at`.  The sprite side
(`kill_letter`) touches no `Game` word.  The result is the new
`(active_words, typing_at)` pair; `none` models an escaped exception. -/
def doTyped (active : List Word) (typingAt : Option Word) (c : Char) :
    Option (List Word × Option Word) :=
  match typingAt with
  | none =>
    match findWord active c with
    | none => some (active, none)
    | some w =>
      match hitWord active w with
      | none => none
      | some (ys, r) => some (ys, r)
  | some t =>
    if startsWithChar t c then
      match hitWord active t with
      | none => none
      | some (ys, r) => some (ys, r)
    else
      some (active, some t)

/-- The word a keystroke is resolved against: the current lock if one exists,
otherwise the first active word whose head matches the typed character. -/
def lockedWordFor (active : List Word) (typingAt : Option Word) (c : Char) :
    Option Word :=
  match typingAt with
  | some t => some t
  | none => findWord active c

/-- The admission test of `Game.spawnmax`: the candidate is appended only if
it is not already active and no active word starts with the candidate's first
letter (`existing.startswith(word[0])`; dictionary words are non-empty, the
`main` loader keeps only words of length at least 3). -/
def admits (active : List Word) (w : Word) : Bool :=
  !(decide (w ∈ active)) && !(active.any fun ex => decide (ex.head? = w.head?))

/-- `Game.spawnmax` as a fuel-indexed loop.  `f` supplies the successive
random dictionary draws (`random.choice(dictionary[randint(..)])`), `i` the
draw counter.  `none` means the `while` loop is still running after `fuel`
iterations; the code itself has no bound of any kind. -/
def spawnmaxFuel (maxspawn : Nat) (f : Nat → Word) :
    Nat → Nat → List Word → Option (List Word)
  | 0, _, active => if active.length < maxspawn then none else some active
  | fuel + 1, i, active =>
    if active.length < maxspawn then
      spawnmaxFuel maxspawn f fuel (i + 1)
        (if admits active (f i) then active ++ [f i] else active)
    else some active

/-- The animation `Driver` attached to a `Rect`: `iterable = None` (idle) is
`none`, a live iterator is `some` of its remaining value sequence.  The pair
is `(driver state, driven attribute value)`. -/
def rectUpdate {V : Type} : Option (List V) × V → Option (List V) × V
  | (none, a) => (none, a)
  | (some [], a) => (none, a)
  | (some (v :: vs), _) => (some vs, v)

/-- A channel of `util.lerpsiter`: either the original `lerpiter` generator
with its remaining values, or the `itertools.repeat` replacement installed
after it raised `StopIteration`. -/
inductive Chan (V : Type) where
  | orig (rest : List V)
  | rep (v : V)
deriving DecidableEq

/-- Membership in the `running` set: only original iterators are ever in it,
and an original iterator leaves it exactly when it raises. -/
def chanIsOrig {V : Type} : Chan V → Bool
  | .orig _ => true
  | .rep _ => false

/-- One `next(iterator)` of the per-channel scan in `util.lerpsiter`.  An
exhausted original iterator is replaced by `it.repeat(value)`, where `value`
is the Python local holding the most recently produced value of the scan —
not the channel's own final value. -/
def chanNext {V : Type} (stale : V) : Chan V → V × Chan V
  | .orig [] => (stale, .rep stale)
  | .orig (v :: vs) => (v, .orig vs)
  | .rep v => (v, .rep v)

/-- One pass of the `for index, iterator in enumerate(iters)` loop of
`util.lerpsiter`, threading the Python local `value` left to right.  Returns
the tuple of produced values and the updated channels. -/
def passRun {V : Type} (stale : V) : List (Chan V) → List V × List (Chan V)
  | [] => ([], [])
  | ch :: chs =>
    let p := chanNext stale ch
    let q := passRun p.1 chs
    (p.1 :: q.1, p.2 :: q.2)

/-- Number of further passes a channel survives: an original iterator with
`n` values raises on pass `n + 1`; a repeat iterator is never in `running`. -/
def chanRem {V : Type} : Chan V → Nat
  | .orig l => l.length + 1
  | .rep _ => 0

/-- Largest `chanRem` over the channels; `0` iff the `running` set is empty. -/
def maxRem {V : Type} (chans : List (Chan V)) : Nat :=
  chans.foldr (fun ch acc => max (chanRem ch) acc) 0

/-- Longest channel length of the input sequences. -/
def maxLen {V : Type} (ls : List (List V)) : Nat :=
  ls.foldr (fun l acc => max l.length acc) 0

/-- The `while running:` loop of `util.lerpsiter`; the tuple of a pass is
yielded only when `running` is still non-empty after the pass.  `fuel` bounds
the number of passes and is chosen large enough below. -/
def lerpsLoop {V : Type} : Nat → V → List (Chan V) → List (List V)
  | 0, _, _ => []
  | fuel + 1, stale, chans =>
    if chans.any chanIsOrig then
      let p := passRun stale chans
      if p.2.any chanIsOrig then p.1 :: lerpsLoop fuel (p.1.getLastD stale) p.2
      else []
    else []

/-- `util.lerpsiter` with each per-channel `lerpiter` generator abstracted to
its finite value sequence (all channels of one call share `duration` and the
per-frame `g.dt`).  `stale` stands for the initial, never-read value of the
Python local `value`. -/
def lerpsRun {V : Type} (stale : V) (ls : List (List V)) : List (List V) :=
  lerpsLoop (maxRem (ls.map Chan.orig)) stale (ls.map Chan.orig)

/-- Sprite identifiers standing for the Python sprite objects. -/
abbrev SpriteId := Nat

/-- `pygame.sprite.Group.add` membership effect: adding an already-present
sprite is a no-op. -/
def addSp (gs : List SpriteId) (x : SpriteId) : List SpriteId :=
  if x ∈ gs then gs else gs ++ [x]

/-- `pygame.sprite.Group.remove` / `Sprite.kill` membership effect. -/
def remSp (gs : List SpriteId) (x : SpriteId) : List SpriteId :=
  gs.filter (fun y => y ≠ x)

/-- The three state classes of the machine. -/
inductive SKind where
  | menu
  | game
  | pause
deriving DecidableEq

/-- A `State` instance: its kind, its `saved_sprites` group (constructed
empty by `State.__init__` and populated by no code path: `State.exit` only
re-adds members of `saved_sprites` to itself), and — for `GamePauseState` —
the overlay sprites of its `pause_group` (`resume` and `quit`). -/
structure St where
  kind : SKind
  saved : List SpriteId
  own : List SpriteId
deriving DecidableEq

/-- Effect of `state.enter()` on the global sprite set `g.sprites`.
`MainmenuState.enter` and `GameState.enter` call `State.enter`, which adds
the saved sprites back; their extra work (event handlers, animation drivers,
brain phases) does not change membership.  `GamePauseState.enter` does not
call `super().enter()`; it deactivates enemy/effect sprites (a flag, not
membership) and adds its pause overlay sprites. -/
def stEnter (gs : List SpriteId) (s : St) : List SpriteId :=
  match s.kind with
  | .pause => s.own.foldl addSp gs
  | _ => s.saved.foldl addSp gs

/-- Effect of `state.exit()` on the global sprite set: `State.exit` removes
each sprite of `saved_sprites` from `g.sprites` (and re-adds it to
`saved_sprites`, leaving that group unchanged); `GamePauseState.exit` kills
its two overlay sprites and removes its pause group. -/
def stExit (gs : List SpriteId) (s : St) : List SpriteId :=
  match s.kind with
  | .pause => s.own.foldl remSp gs
  | _ => s.saved.foldl remSp gs

/-- `StateStack.append`: exit the previous top (if any), push, enter the new
state.  The head of the list is the top of the stack. -/
def stackAppend (gs : List SpriteId) (stack : List St) (s : St) :
    List SpriteId × List St :=
  match stack with
  | [] => (stEnter gs s, [s])
  | t :: rest => (stEnter (stExit gs t) s, s :: t :: rest)

/-- `StateStack.pop`: pop and exit the top, then enter the new top (if any). -/
def stackPop (gs : List SpriteId) (stack : List St) : List SpriteId × List St :=
  match stack with
  | [] => (gs, [])
  | s :: rest =>
    match rest with
    | [] => (stExit gs s, [])
    | t :: _ => (stEnter (stExit gs s) t, rest)

/-- The target of a bullet: an `EnemyShip` record.  In Python the killed
sprite object survives (it is only removed from all groups), so its fields
stay accessible; `alive` records group membership. -/
structure ShipRec where
  health : Int
  alive : Bool
deriving DecidableEq

/-- A `Bullet`: elapsed time and duration in seconds, and the index of its
target ship in the ship store (standing for the Python object reference). -/
structure BulletSt where
  time : Rat
  duration : Rat
  target : Nat
deriving DecidableEq

/-- `Bullet.update` restricted to timing and damage (the rect interpolation
reads only fields that survive a kill and affects no other entity).  `dt` is
`g.dt` in milliseconds.  Returns the updated bullet, the updated ship store
and whether the bullet killed itself; the outer `none` models a dangling
index, which cannot arise in Python (the reference pins the object). -/
def bulletUpdate (dt : Rat) (b : BulletSt) (store : List ShipRec) :
    Option (BulletSt × List ShipRec × Bool) :=
  let time := b.time + dt / 1000
  if b.duration ≤ time then
    match store.get? b.target with
    | none => none
    | some s =>
      let s1 : ShipRec := ⟨s.health - 1, s.alive⟩
      let s2 := if s1.health = 0 then ⟨s1.health, false⟩ else s1
      some (⟨time, b.duration, b.target⟩, store.set b.target s2, true)
  else
    some (⟨time, b.duration, b.target⟩, store, false)

/-- A pygame `Rect`: left, top, width, height (integers). -/
structure PRect where
  x : Int
  y : Int
  w : Int
  h : Int
deriving DecidableEq

/-- One axis of pygame `Rect.clamp`: centered when too large, otherwise
translated to lie within `[cx, cx + cw - w]`. -/
def clampAxis (x w cx cw : Int) : Int :=
  if cw ≤ w then cx + cw / 2 - w / 2
  else if x < cx then cx
  else if cx + cw < x + w then cx + cw - w
  else x

/-- pygame `Rect.clamp`. -/
def pclamp (r inside : PRect) : PRect :=
  ⟨clampAxis r.x r.w inside.x inside.w, clampAxis r.y r.h inside.y inside.h, r.w, r.h⟩

/-- `Rect.random`: a single uniform sample `(sx, sy)` of the top-left corner
(`randint(inside.left, inside.right)` and `randint(inside.top,
inside.bottom)`), then `clamp(inside)`.  No other input is consulted. -/
def rectRandom (size : Int × Int) (inside : PRect) (sx sy : Int) : PRect :=
  pclamp ⟨sx, sy, size.1, size.2⟩ inside

/-- pygame `Rect.colliderect`: strict overlap on both axes. -/
def colliderect (a b : PRect) : Bool :=
  decide (a.x < b.x + b.w) && decide (a.y < b.y + b.h) &&
    decide (b.x < a.x + a.w) && decide (b.y < a.y + a.h)

/-- The `for word in g.game.active_words` placement loop of
`GameState.do_spawn`, one `Rect.random` sample per group, `i` counting the
samples consumed. -/
def placeLoop (inside : PRect) (samples : Nat → Int × Int) :
    Nat → List (Int × Int) → List PRect
  | _, [] => []
  | i, sz :: rest =>
    rectRandom sz inside (samples i).1 (samples i).2 ::
      placeLoop inside samples (i + 1) rest

/-- The placement part of `GameState.do_spawn`: each enemy group's bounding
box (of the given size) is positioned at `bounding.random(g.spawnrect)`, one
sample per group; already-placed groups are not consulted. -/
def doSpawnPlacements (sizes : List (Int × Int)) (inside : PRect)
    (samples : Nat → Int × Int) : List PRect :=
  placeLoop inside samples 0 sizes

/-- Modelled from the spec: the rejection-sampling placement the spec
describes ("re-sampling until no collision with any already-placed enemy
bounding box ... bounded by a max-attempts fallback that accepts last sampled
position").  This procedure exists nowhere in the code; it is stated here
only to compare against `rectRandom`. -/
def specPlacement (existing : List PRect) (size : Int × Int) (inside : PRect)
    (samples : Nat → Int × Int) : Nat → Nat → PRect
  | i, 0 => rectRandom size inside (samples i).1 (samples i).2
  | i, retries + 1 =>
    let r := rectRandom size inside (samples i).1 (samples i).2
    if existing.any (fun e => colliderect r e) then
      specPlacement existing size inside samples (i + 1) retries
    else r

/-- The `while self.buffered_events: events.insert(0, popleft())` loop of
`Engine.step`: each buffered event (oldest first) is inserted at the front
of the frame's event list. -/
def drainLoop {E : Type} : List E → List E → List E
  | [], events => events
  | b :: bs, events => drainLoop bs (b :: events)

/-- The event list `Engine.step` iterates over: on a step frame the buffered
events are drained in front of the freshly polled ones, otherwise the polled
events alone (they are additionally appended to the buffer). -/
def stepEvents {E : Type} (doStep : Bool) (buffered polled : List E) : List E :=
  if doStep then drainLoop buffered polled else polled

/-- The buffer after `Engine.step`: drained on a step frame, extended with
the polled events otherwise. -/
def bufferAfter {E : Type} (doStep : Bool) (buffered polled : List E) : List E :=
  if doStep then [] else buffered ++ polled

/-- Decomposition of a list at the first occurrence of a member. -/
theorem mem_first_decomp {α : Type} [DecidableEq α] {a : α} :
    ∀ {l : List α}, a ∈ l → ∃ l₁ l₂, l = l₁ ++ a :: l₂ ∧ a ∉ l₁
  | [], h => absurd h (List.not_mem_nil a)
  | x :: xs, h => by
    by_cases hx : x = a
    · exact ⟨[], xs, by simp [hx], by simp⟩
    · have hmem : a ∈ xs := by
        rcases List.mem_cons.mp h with h1 | h1
        · exact absurd h1.symm hx
        · exact h1
      obtain ⟨l₁, l₂, hdec, hnot⟩ := mem_first_decomp hmem
      refine ⟨x :: l₁, l₂, by simp [hdec], ?_⟩
      intro hmem2
      rcases List.mem_cons.mp hmem2 with h1 | h1
      · exact hx h1.symm
      · exact hnot h1

/-- `hitWord` evaluated at the first-occurrence decomposition: the first
occurrence is stripped in place, or popped when the strip empties it; every
other entry and the order of the remainder are untouched. -/
theorem hitWord_eq (w : Word) :
    ∀ (l₁ l₂ : List Word), w ∉ l₁ →
      hitWord (l₁ ++ w :: l₂) w =
        some (if w.drop 1 = [] then (l₁ ++ l₂, none)
              else (l₁ ++ w.drop 1 :: l₂, some (w.drop 1)))
  | [], l₂, _ => by
    show hitWord (w :: l₂) w = _
    simp only [hitWord, if_true]
    by_cases h : w.drop 1 = []
    · rw [if_pos h, if_pos h]
      rfl
    · rw [if_neg h, if_neg h]
      rfl
  | x :: l₁, l₂, hx => by
    have hxw : ¬(x = w) := fun h => hx (by simp [h])
    have hnot : w ∉ l₁ := fun h => hx (List.mem_cons_of_mem _ h)
    have ih := hitWord_eq w l₁ l₂ hnot
    show hitWord (x :: (l₁ ++ w :: l₂)) w = _
    simp only [hitWord]
    rw [if_neg hxw, ih]
    by_cases h : w.drop 1 = []
    · rw [if_pos h, if_pos h]
      rfl
    · rw [if_neg h, if_neg h]
      rfl

/-- C1: for every keystroke delivered to the resolver, with the resolver
invariant that a held lock is an active word: if the typed character equals
the head character of the word the keystroke is resolved against (the held
lock, or the word locked by this keystroke), exactly that word's remaining
length decreases by 1 — it is stripped in place (popped when emptied) and
every other active word is unchanged in value and order; for any other typed
character the active word list is returned unchanged (and a held lock is
kept).  No exception escapes. -/
theorem do_typed_resolver (active : List Word) (ta : Option Word) (c : Char)
    (hta : ∀ t, ta = some t → t ∈ active) :
    (∀ w, lockedWordFor active ta c = some w → startsWithChar w c = true →
      ∃ l₁ l₂, active = l₁ ++ w :: l₂ ∧ w ∉ l₁ ∧ (w.drop 1).length + 1 = w.length ∧
        doTyped active ta c =
          some (if w.drop 1 = [] then (l₁ ++ l₂, none)
                else (l₁ ++ w.drop 1 :: l₂, some (w.drop 1)))) ∧
    (∀ w, lockedWordFor active ta c = some w → startsWithChar w c = false →
      doTyped active ta c = some (active, ta)) ∧
    (lockedWordFor active ta c = none → doTyped active ta c = some (active, none)) := by
  cases ta with
  | some t =>
    have hmem : t ∈ active := hta t rfl
    refine ⟨?_, ?_, ?_⟩
    · intro w hw hsw
      have hwt : w = t := by
        simp only [lockedWordFor, Option.some.injEq] at hw
        exact hw.symm
      subst hwt
      obtain ⟨l₁, l₂, hdec, hnot⟩ := mem_first_decomp hmem
      have hne : w ≠ [] := by
        intro h
        rw [h] at hsw
        simp [startsWithChar] at hsw
      refine ⟨l₁, l₂, hdec, hnot, ?_, ?_⟩
      · rw [List.length_drop]
        have : 0 < w.length := List.length_pos.mpr hne
        omega
      · simp only [doTyped, hsw, if_true]
        rw [hdec, hitWord_eq w l₁ l₂ hnot]
    · intro w hw hsw
      have hwt : w = t := by
        simp only [lockedWordFor, Option.some.injEq] at hw
        exact hw.symm
      subst hwt
      simp [doTyped, hsw]
    · intro hw
      simp [lockedWordFor] at hw
  | none =>
    refine ⟨?_, ?_, ?_⟩
    · intro w hw hsw
      have hfind : findWord active c = some w := hw
      have hmem : w ∈ active := List.mem_of_find?_eq_some hfind
      obtain ⟨l₁, l₂, hdec, hnot⟩ := mem_first_decomp hmem
      have hne : w ≠ [] := by
        intro h
        rw [h] at hsw
        simp [startsWithChar] at hsw
      refine ⟨l₁, l₂, hdec, hnot, ?_, ?_⟩
      · rw [List.length_drop]
        have : 0 < w.length := List.length_pos.mpr hne
        omega
      · simp only [doTyped, hfind]
        rw [hdec, hitWord_eq w l₁ l₂ hnot]
    · intro w hw hsw
      have hfind : findWord active c = some w := hw
      have := List.find?_some hfind
      rw [hsw] at this
      exact absurd this (by simp)
    · intro hw
      have hfind : findWord active c = none := hw
      simp [doTyped, hfind]

/-- A first-occurrence decomposition whose target heads the list is trivial. -/
theorem first_decomp_head {α : Type} {a : α} {l l₁ l₂ : List α}
    (hdec : a :: l = l₁ ++ a :: l₂) (hnot : a ∉ l₁) : l₁ = [] ∧ l₂ = l := by
  cases l₁ with
  | nil =>
    simp only [List.nil_append] at hdec
    injection hdec with _ h2
    exact ⟨rfl, h2.symm⟩
  | cons b bs =>
    simp only [List.cons_append] at hdec
    injection hdec with h1 _
    exact absurd (by rw [h1]; exact List.mem_cons_self _ _) hnot

/-- Witness for C1: locked on "dog", typing 'd' strips it to "og". -/
theorem do_typed_resolver_witness :
    doTyped [['d','o','g']] (some ['d','o','g']) 'd' =
      some ([['o','g']], some ['o','g']) := by
  obtain ⟨A, _, _⟩ := do_typed_resolver [['d','o','g']] (some ['d','o','g']) 'd'
    (by intro t ht; injection ht with h; simp [← h])
  obtain ⟨l₁, l₂, hdec, hnot, hlen, heq⟩ := A ['d','o','g'] rfl (by decide)
  obtain ⟨h1, h2⟩ := first_decomp_head hdec hnot
  subst h1; subst h2
  simpa using heq

/-- C10: `hit_word` on an active word strips the first character in place at
the word's first index, returning the stripped word when non-empty, and pops
the entry returning `None` when the word had exactly one character; the
words before and after it are untouched and keep their order. -/
theorem hit_word_frame (active : List Word) (w : Word) (hmem : w ∈ active)
    (hne : w ≠ []) :
    ∃ l₁ l₂, active = l₁ ++ w :: l₂ ∧ w ∉ l₁ ∧
      hitWord active w =
        some (if w.length = 1 then (l₁ ++ l₂, none)
              else (l₁ ++ w.drop 1 :: l₂, some (w.drop 1))) := by
  obtain ⟨l₁, l₂, hdec, hnot⟩ := mem_first_decomp hmem
  refine ⟨l₁, l₂, hdec, hnot, ?_⟩
  rw [hdec, hitWord_eq w l₁ l₂ hnot]
  have hpos : 0 < w.length := List.length_pos.mpr hne
  have hiff : (w.drop 1 = []) ↔ (w.length = 1) := by
    rw [List.drop_eq_nil_iff]
    omega
  by_cases h : w.length = 1
  · rw [if_pos (hiff.mpr h), if_pos h]
  · rw [if_neg (fun hh => h (hiff.mp hh)), if_neg h]

/-- Counterexample to C2 as stated: `spawnmax` can return with two active
words sharing a first character, because it only guards admissions and never
re-checks the words that were already active when it was called.  The state
is reachable: spawn "xb" and "bc", then type 'x', leaving "b" and "bc". -/
theorem spawnmax_postcondition_cex :
    spawnmaxFuel 2 (fun _ => ['x','y','z']) 5 0 [['b'], ['b','c']] =
      some [['b'], ['b','c']] ∧
    (['b'] : Word).head? = (['b','c'] : Word).head? := by decide

/-- Pairwise-distinct first characters forces pairwise-distinct words. -/
theorem nodup_of_pairwise_heads {active : List Word}
    (h : active.Pairwise (fun u v => u.head? ≠ v.head?)) : active.Nodup :=
  h.imp fun hne hab => hne (congrArg List.head? hab)

/-- A word passing the admission guard extends the invariant. -/
theorem pairwise_heads_append_admitted {active : List Word} {w : Word}
    (hinv : active.Pairwise (fun u v => u.head? ≠ v.head?))
    (hadm : admits active w = true) :
    (active ++ [w]).Pairwise (fun u v => u.head? ≠ v.head?) := by
  rw [List.pairwise_append]
  refine ⟨hinv, List.pairwise_singleton _ _, ?_⟩
  intro u hu v hv
  simp only [List.mem_singleton] at hv
  subst hv
  simp only [admits, Bool.and_eq_true, Bool.not_eq_true', List.any_eq_false,
    decide_eq_false_iff_not] at hadm
  exact fun heq => hadm.2 u hu (by simp [heq])

/-- C2 amended: every word `spawnmax` admits satisfies the guard against the
words active at its admission, so the no-shared-first-character invariant
(and hence no-exact-duplicates) is preserved from entry to return; it is not
established for words already active at entry. -/
theorem spawnmax_admission_invariant (maxspawn : Nat) (f : Nat → Word)
    (fuel : Nat) :
    ∀ (i : Nat) (active res : List Word),
      active.Pairwise (fun u v => u.head? ≠ v.head?) →
      spawnmaxFuel maxspawn f fuel i active = some res →
      res.Pairwise (fun u v => u.head? ≠ v.head?) ∧ res.Nodup := by
  induction fuel with
  | zero =>
    intro i active res hinv h
    simp only [spawnmaxFuel] at h
    by_cases hlen : active.length < maxspawn
    · rw [if_pos hlen] at h
      exact Option.noConfusion h
    · rw [if_neg hlen] at h
      injection h with h
      subst h
      exact ⟨hinv, nodup_of_pairwise_heads hinv⟩
  | succ n ih =>
    intro i active res hinv h
    simp only [spawnmaxFuel] at h
    by_cases hlen : active.length < maxspawn
    · rw [if_pos hlen] at h
      by_cases hadm : admits active (f i) = true
      · rw [if_pos hadm] at h
        exact ih (i + 1) (active ++ [f i]) res
          (pairwise_heads_append_admitted hinv hadm) h
      · rw [if_neg hadm] at h
        exact ih (i + 1) active res hinv h
    · rw [if_neg hlen] at h
      injection h with h
      subst h
      exact ⟨hinv, nodup_of_pairwise_heads hinv⟩

/-- Witness for the amended C2: from an empty active set, draws "abc" then
"xyz" are both admitted and the returned set satisfies both conditions. -/
theorem spawnmax_admission_invariant_witness :
    ([['a','b','c'], ['x','y','z']] : List Word).Pairwise
      (fun u v => u.head? ≠ v.head?) ∧
    ([['a','b','c'], ['x','y','z']] : List Word).Nodup :=
  spawnmax_admission_invariant 2
    (fun i => if i = 0 then ['a','b','c'] else ['x','y','z']) 2 0 []
    [['a','b','c'], ['x','y','z']] List.Pairwise.nil (by decide)

/-- The adversarial dictionary of C3: every word starts with 'a'. -/
def dictC3 : List Word := [['a','b','c'], ['a','x','y']]

/-- From any reachable one-or-zero-word state over `dictC3`, the `spawnmax`
loop never reaches two active words: every later draw shares the first
letter 'a' with the single active word and is rejected forever. -/
theorem spawnmax_starves (fuel : Nat) :
    ∀ (i : Nat) (f : Nat → Fin dictC3.length) (active : List Word),
      (active = [] ∨ ∃ u, u ∈ dictC3 ∧ active = [u]) →
      spawnmaxFuel 2 (fun j => dictC3.get (f j)) fuel i active = none := by
  have hhead : ∀ u ∈ dictC3, u.head? = some 'a' := by decide
  induction fuel with
  | zero =>
    intro i f active hact
    have hlen : active.length < 2 := by
      rcases hact with h | ⟨u, _, h⟩ <;> subst h <;> simp
    simp [spawnmaxFuel, hlen]
  | succ n ih =>
    intro i f active hact
    have hlen : active.length < 2 := by
      rcases hact with h | ⟨u, _, h⟩ <;> subst h <;> simp
    have hwmem : dictC3.get (f i) ∈ dictC3 :=
      List.get_mem dictC3 (f i).1 (f i).2
    rcases hact with h | ⟨u, hu, h⟩ <;> subst h
    · simp only [spawnmaxFuel, if_pos hlen]
      have hadm : admits [] (dictC3.get (f i)) = true := by simp [admits]
      rw [if_pos hadm]
      exact ih (i + 1) f _ (Or.inr ⟨_, hwmem, by simp⟩)
    · simp only [spawnmaxFuel, if_pos hlen]
      have h1 := hhead u hu
      have h2 := hhead _ hwmem
      have hany : (([u] : List Word).any
          fun ex => decide (ex.head? = (dictC3.get (f i)).head?)) = true := by
        simp only [List.any_cons, List.any_nil, h1, h2]
        rfl
      have hadm : admits [u] (dictC3.get (f i)) = false := by
        simp only [admits]
        rw [hany]
        simp
      have hne : ¬(admits [u] (dictC3.get (f i)) = true) := by
        rw [hadm]
        exact Bool.false_ne_true
      rw [if_neg hne]
      exact ih (i + 1) f [u] (Or.inr ⟨u, hu, rfl⟩)

/-- C3: on a dictionary whose words all share a first letter, the `spawnmax`
loop started from an empty active set terminates for NO amount of fuel — the
code has no retry bound and no starvation signal, contradicting the claim. -/
theorem spawnmax_no_retry_bound (fuel i : Nat)
    (f : Nat → Fin dictC3.length) :
    spawnmaxFuel 2 (fun j => dictC3.get (f j)) fuel i [] = none :=
  spawnmax_starves fuel i f [] (Or.inl rfl)

/-- Witness for C10: hitting the one-letter active word "g" pops it, leaving
the other active word untouched. -/
theorem hit_word_frame_witness :
    hitWord [['g'], ['a','b']] ['g'] = some ([['a','b']], none) := by
  obtain ⟨l₁, l₂, hdec, hnot, heq⟩ :=
    hit_word_frame [['g'], ['a','b']] ['g'] (by decide) (by decide)
  obtain ⟨h1, h2⟩ := first_decomp_head hdec hnot
  subst h1; subst h2
  simpa using heq

/-- After `k + 1` updates, a driver running on `vals` has assigned the first
`k + 1` values in order; the `k`-th value is current and the rest pending. -/
theorem rectUpdate_iterate {V : Type} :
    ∀ (k : Nat) (vals : List V) (a0 : V) (hk : k < vals.length),
      rectUpdate^[k + 1] (some vals, a0) =
        (some (vals.drop (k + 1)), vals.get ⟨k, hk⟩)
  | 0, v :: vs, a0, _ => rfl
  | k + 1, v :: vs, a0, hk => by
    have hk2 : k < vs.length := by simpa using hk
    have ih := rectUpdate_iterate k vs v hk2
    rw [Function.iterate_succ_apply]
    show rectUpdate^[k + 1] (some vs, v) = _
    rw [ih]
    rfl

/-- An idle driver leaves the attribute unchanged on every further tick. -/
theorem rectUpdate_idle {V : Type} (a : V) :
    ∀ (m : Nat), rectUpdate^[m] ((none : Option (List V)), a) = (none, a)
  | 0 => rfl
  | m + 1 => by
    rw [Function.iterate_succ_apply]
    show rectUpdate^[m] ((none : Option (List V)), a) = _
    exact rectUpdate_idle a m

/-- C7: a driver running a finite sequence of `N` values assigns exactly
those `N` values in order to the driven attribute (tick `k + 1` holds value
`k`); from tick `N + 1` on the driver is idle (`iterable = None`) and the
attribute holds exactly the final sequence value, unchanged forever. -/
theorem animation_driver_runs {V : Type} (vals : List V) (a0 : V)
    (hne : vals ≠ []) :
    (∀ k (hk : k < vals.length),
      (rectUpdate^[k + 1] (some vals, a0)).2 = vals.get ⟨k, hk⟩) ∧
    (∀ m, vals.length + 1 ≤ m →
      rectUpdate^[m] (some vals, a0) = (none, vals.getLast hne)) := by
  constructor
  · intro k hk
    rw [rectUpdate_iterate k vals a0 hk]
  · intro m hm
    have hk : vals.length - 1 < vals.length := by
      have : 0 < vals.length := List.length_pos.mpr hne
      omega
    have hN : rectUpdate^[vals.length] (some vals, a0) =
        (some [], vals.getLast hne) := by
      have h := rectUpdate_iterate (vals.length - 1) vals a0 hk
      have hsub : vals.length - 1 + 1 = vals.length := by
        have : 0 < vals.length := List.length_pos.mpr hne
        omega
      rw [hsub] at h
      rw [h, List.drop_length]
      congr 1
      simp [List.getLast_eq_getElem]
    obtain ⟨j, hj⟩ : ∃ j, m = j + (vals.length + 1) := ⟨m - (vals.length + 1), by omega⟩
    subst hj
    rw [Function.iterate_add_apply, Function.iterate_succ_apply', hN]
    show rectUpdate^[j] ((none : Option (List V)), vals.getLast hne) = _
    exact rectUpdate_idle _ j

/-- Witness for C7: driving through `[3, 7]`, tick 1 assigns 3, and every
tick from 3 on leaves the idle driver at the final value 7. -/
theorem animation_driver_runs_witness :
    ((rectUpdate^[1] ((some [3, 7] : Option (List Nat)), 0)).2 = 3) ∧
    rectUpdate^[5] ((some [3, 7] : Option (List Nat)), 0) = (none, 7) := by
  have h := animation_driver_runs [3, 7] 0 (by decide)
  exact ⟨h.1 0 (by decide), h.2 5 (by decide)⟩

/-- Counterexample to C4 as stated: a bullet whose target is already
destroyed (`alive = false`) still decrements the destroyed target's health
when its duration elapses — damage is applied unconditionally. -/
theorem bullet_dead_target_cex :
    bulletUpdate 1000 ⟨0, 1, 0⟩ [⟨2, false⟩] =
      some (⟨1, 1, 0⟩, [⟨1, false⟩], true) ∧
    ([(⟨1, false⟩ : ShipRec)] ≠ [⟨2, false⟩]) := by
  constructor
  · norm_num [bulletUpdate]
  · decide

/-- C4 amended: when the bullet's target was destroyed before the duration
elapsed, the bullet still expires without an exception (the Python object
outlives its groups) and kills itself; it leaves every other entity exactly
unchanged, but it does decrement the destroyed target's stored health by 1
(the target stays destroyed, so the decrement has no live effect). -/
theorem bullet_dead_target (dt : Rat) (b : BulletSt) (store : List ShipRec)
    (s : ShipRec) (hs : store.get? b.target = some s) (hdead : s.alive = false)
    (hexp : b.duration ≤ b.time + dt / 1000) :
    ∃ s2 : ShipRec,
      bulletUpdate dt b store =
        some (⟨b.time + dt / 1000, b.duration, b.target⟩,
          store.set b.target s2, true) ∧
      s2.health = s.health - 1 ∧ s2.alive = false ∧
      ∀ j, j ≠ b.target → (store.set b.target s2).get? j = store.get? j := by
  refine ⟨if s.health - 1 = 0 then ⟨s.health - 1, false⟩
          else ⟨s.health - 1, s.alive⟩, ?_, ?_, ?_, ?_⟩
  · simp only [bulletUpdate, if_pos hexp, hs]
  · by_cases h : s.health - 1 = 0 <;> simp [h]
  · by_cases h : s.health - 1 = 0 <;> simp [h, hdead]
  · intro j hj
    rw [List.get?_eq_getElem?, List.get?_eq_getElem?,
      List.getElem?_set_ne (Ne.symm hj)]

/-- Witness for the amended C4: an expiring bullet aimed at a dead ship of
health 5 decrements it to 4, kills itself and raises nothing. -/
theorem bullet_dead_target_witness :
    bulletUpdate 1000 ⟨0, 1, 0⟩ [⟨5, false⟩] =
      some (⟨1, 1, 0⟩, [⟨4, false⟩], true) := by
  obtain ⟨s2, heq, hh, ha, _⟩ :=
    bullet_dead_target 1000 ⟨0, 1, 0⟩ [⟨5, false⟩] ⟨5, false⟩ rfl rfl
      (by norm_num)
  obtain ⟨h, a⟩ := s2
  simp only at hh ha
  norm_num at hh
  subst hh
  subst ha
  rw [heq]
  norm_num

/-- Membership after idempotently adding a sprite. -/
theorem mem_addSp {gs : List SpriteId} {x y : SpriteId} :
    y ∈ addSp gs x ↔ y ∈ gs ∨ y = x := by
  unfold addSp
  by_cases h : x ∈ gs
  · rw [if_pos h]
    constructor
    · exact Or.inl
    · rintro (h1 | rfl)
      · exact h1
      · exact h
  · rw [if_neg h]
    simp

/-- Membership after removing a sprite. -/
theorem mem_remSp {gs : List SpriteId} {x y : SpriteId} :
    y ∈ remSp gs x ↔ y ∈ gs ∧ y ≠ x := by
  simp [remSp]

/-- Membership after adding a whole group of sprites. -/
theorem mem_foldl_addSp :
    ∀ (xs gs : List SpriteId) (y : SpriteId),
      y ∈ xs.foldl addSp gs ↔ y ∈ gs ∨ y ∈ xs
  | [], gs, y => by simp
  | x :: xs, gs, y => by
    rw [List.foldl_cons, mem_foldl_addSp xs (addSp gs x) y]
    rw [@mem_addSp gs x y]
    simp only [List.mem_cons]
    tauto

/-- Membership after removing a whole group of sprites. -/
theorem mem_foldl_remSp :
    ∀ (xs gs : List SpriteId) (y : SpriteId),
      y ∈ xs.foldl remSp gs ↔ y ∈ gs ∧ y ∉ xs
  | [], gs, y => by simp
  | x :: xs, gs, y => by
    rw [List.foldl_cons, mem_foldl_remSp xs (remSp gs x) y]
    rw [@mem_remSp gs x y]
    simp only [List.mem_cons]
    tauto

/-- Entering then exiting one state restores the global sprite membership:
for menu/game states because `saved_sprites` is empty, for the pause state
because its fresh overlay sprites are added and then killed. -/
theorem enter_exit_self (g : List SpriteId) (s : St) (hsaved : s.saved = [])
    (hfresh : ∀ x ∈ s.own, x ∉ g) (y : SpriteId) :
    y ∈ stExit (stEnter g s) s ↔ y ∈ g := by
  cases hk : s.kind
  · simp [stEnter, stExit, hk, hsaved]
  · simp [stEnter, stExit, hk, hsaved]
  · simp only [stEnter, stExit, hk]
    rw [mem_foldl_remSp, mem_foldl_addSp]
    constructor
    · rintro ⟨h1 | h2, hno⟩
      · exact h1
      · exact absurd h2 hno
    · intro hy
      exact ⟨Or.inl hy, fun hown => hfresh y hown hy⟩

/-- C5: pushing a state onto the state stack and then popping it restores
exactly the membership of the global update/draw sprite set (and the stack):
`State.__init__` creates `saved_sprites` empty and no code path ever
populates it (`State.exit` only re-adds its own members), so the suspend and
resume steps of the states below the top move nothing, and the pause
overlay, the only sprites a push adds, is removed again by its exit. -/
theorem push_pop_restores (gs : List SpriteId) (stack : List St) (s : St)
    (hsaved : s.saved = [])
    (htop : ∀ t, stack.head? = some t → t.kind ≠ SKind.pause ∧ t.saved = [])
    (hfresh : ∀ x ∈ s.own, x ∉ gs) :
    (∀ y, y ∈ (stackPop (stackAppend gs stack s).1
        (stackAppend gs stack s).2).1 ↔ y ∈ gs) ∧
    (stackPop (stackAppend gs stack s).1 (stackAppend gs stack s).2).2 =
      stack := by
  cases stack with
  | nil =>
    constructor
    · intro y
      show y ∈ stExit (stEnter gs s) s ↔ y ∈ gs
      exact enter_exit_self gs s hsaved hfresh y
    · rfl
  | cons t rest =>
    obtain ⟨hknd, hsvd⟩ := htop t rfl
    have hexit : stExit gs t = gs := by
      cases hk : t.kind
      · simp [stExit, hk, hsvd]
      · simp [stExit, hk, hsvd]
      · exact absurd hk hknd
    have henter : ∀ g, stEnter g t = g := by
      intro g
      cases hk : t.kind
      · simp [stEnter, hk, hsvd]
      · simp [stEnter, hk, hsvd]
      · exact absurd hk hknd
    constructor
    · intro y
      show y ∈ stEnter (stExit (stEnter (stExit gs t) s) s) t ↔ y ∈ gs
      rw [hexit, henter]
      exact enter_exit_self gs s hsaved hfresh y
    · rfl

/-- Witness for C5: pausing over the game state with overlay sprites 5, 6
on a world of sprites 1, 2 and popping restores membership and the stack. -/
theorem push_pop_restores_witness :
    ((5 ∈ (stackPop
        (stackAppend [1, 2] [⟨SKind.game, [], []⟩] ⟨SKind.pause, [], [5, 6]⟩).1
        (stackAppend [1, 2] [⟨SKind.game, [], []⟩]
          ⟨SKind.pause, [], [5, 6]⟩).2).1) ↔ 5 ∈ [1, 2]) ∧
    (stackPop
        (stackAppend [1, 2] [⟨SKind.game, [], []⟩] ⟨SKind.pause, [], [5, 6]⟩).1
        (stackAppend [1, 2] [⟨SKind.game, [], []⟩]
          ⟨SKind.pause, [], [5, 6]⟩).2).2 = [⟨SKind.game, [], []⟩] := by
  have h := push_pop_restores [1, 2] [⟨SKind.game, [], []⟩]
    ⟨SKind.pause, [], [5, 6]⟩ rfl
    (by
      intro t ht
      injection ht with h2
      exact h2 ▸ ⟨by decide, rfl⟩)
    (by decide)
  exact ⟨h.1 5, h.2⟩

/-- The drain loop of `Engine.step` reverses the buffer in front of the
freshly polled events: `insert(0, popleft())` moves the oldest buffered
event furthest from the front last. -/
theorem drainLoop_eq {E : Type} :
    ∀ (bs events : List E), drainLoop bs events = bs.reverse ++ events
  | [], events => by simp [drainLoop]
  | b :: bs, events => by
    show drainLoop bs (b :: events) = (b :: bs).reverse ++ events
    rw [drainLoop_eq bs (b :: events)]
    simp

/-- C9: on a step trigger the buffered events are NOT processed in arrival
order — the event list handed to the handlers is the reverse of the buffer
followed by the polled events; concretely, buffering 1 then 2 and stepping
processes 2 before 1. -/
theorem step_reverses_buffer :
    (∀ (E : Type) (buffered polled : List E),
      stepEvents true buffered polled = buffered.reverse ++ polled) ∧
    stepEvents true [1, 2] ([] : List Nat) = [2, 1] := by
  constructor
  · intro E buffered polled
    simp [stepEvents, drainLoop_eq]
  · decide

/-- `maxRem` of a cons. -/
theorem maxRem_cons {V : Type} (ch : Chan V) (chs : List (Chan V)) :
    maxRem (ch :: chs) = max (chanRem ch) (maxRem chs) := rfl

/-- One `next` costs a channel one unit of its remaining pass count. -/
theorem chanRem_chanNext {V : Type} (stale : V) (ch : Chan V) :
    chanRem (chanNext stale ch).2 = chanRem ch - 1 := by
  cases ch with
  | orig l => cases l <;> rfl
  | rep v => rfl

/-- One pass decreases the largest remaining pass count by exactly one. -/
theorem maxRem_passRun {V : Type} :
    ∀ (chans : List (Chan V)) (stale : V),
      maxRem (passRun stale chans).2 = maxRem chans - 1
  | [], _ => rfl
  | ch :: chs, stale => by
    have h1 := chanRem_chanNext stale ch
    have h2 := maxRem_passRun chs (chanNext stale ch).1
    show maxRem ((chanNext stale ch).2 ::
      (passRun (chanNext stale ch).1 chs).2) = maxRem (ch :: chs) - 1
    rw [maxRem_cons, maxRem_cons, h1, h2]
    omega

/-- The `running` set is non-empty exactly while some pass count remains. -/
theorem any_orig_iff {V : Type} :
    ∀ (chans : List (Chan V)), chans.any chanIsOrig = true ↔ 1 ≤ maxRem chans
  | [] => by simp [maxRem]
  | ch :: chs => by
    rw [List.any_cons, maxRem_cons, Bool.or_eq_true, any_orig_iff chs]
    cases ch <;> simp [chanIsOrig, chanRem]

/-- The loop of `util.lerpsiter` yields one pass fewer than the largest
remaining pass count (the final pass is computed but not yielded). -/
theorem lerpsLoop_length {V : Type} :
    ∀ (fuel : Nat) (stale : V) (chans : List (Chan V)),
      maxRem chans ≤ fuel →
      (lerpsLoop fuel stale chans).length = maxRem chans - 1
  | 0, stale, chans, hf => by
    have h0 : maxRem chans = 0 := Nat.le_zero.mp hf
    simp [lerpsLoop, h0]
  | fuel + 1, stale, chans, hf => by
    by_cases h : chans.any chanIsOrig = true
    · have h1 : 1 ≤ maxRem chans := (any_orig_iff chans).mp h
      have hpass : maxRem (passRun stale chans).2 = maxRem chans - 1 :=
        maxRem_passRun chans stale
      by_cases h2 : (passRun stale chans).2.any chanIsOrig = true
      · have h3 : 1 ≤ maxRem (passRun stale chans).2 := (any_orig_iff _).mp h2
        have ih := lerpsLoop_length fuel
          ((passRun stale chans).1.getLastD stale) (passRun stale chans).2
          (by omega)
        simp only [lerpsLoop, if_pos h, if_pos h2, List.length_cons, ih]
        omega
      · have h3 : maxRem (passRun stale chans).2 = 0 := by
          by_contra hc
          exact h2 ((any_orig_iff _).mpr (by omega))
        simp only [lerpsLoop, if_pos h, if_neg h2, List.length_nil]
        omega
    · have h0 : maxRem chans = 0 := by
        by_contra hc
        exact h ((any_orig_iff chans).mpr (by omega))
      simp only [lerpsLoop, if_neg h, List.length_nil, h0]

/-- Fresh channels carry one pass more than their length. -/
theorem maxRem_map_orig {V : Type} :
    ∀ (ls : List (List V)), maxRem (ls.map Chan.orig) - 1 = maxLen ls
  | [] => rfl
  | l :: ls => by
    have ih := maxRem_map_orig ls
    show maxRem (Chan.orig l :: ls.map Chan.orig) - 1 = maxLen (l :: ls)
    rw [maxRem_cons]
    have hlen : maxLen (l :: ls) = max l.length (maxLen ls) := rfl
    have hrem : chanRem (Chan.orig l) = l.length + 1 := rfl
    rw [hlen, ← ih, hrem]
    omega

/-- C6 amended (length part): the combined sequence keeps yielding tuples
until every channel is exhausted, and the number of tuples it yields equals
the length of the longest channel. -/
theorem lerpsiter_length {V : Type} (stale : V) (ls : List (List V)) :
    (lerpsRun stale ls).length = maxLen ls := by
  rw [lerpsRun,
    lerpsLoop_length (maxRem (ls.map Chan.orig)) stale (ls.map Chan.orig)
      (Nat.le_refl _)]
  exact maxRem_map_orig ls

/-- Counterexample to C6 as stated: with channels `[0]` and `[10, 20, 30]`,
the exhausted first channel is padded with `10` — the most recent value of
the element-wise scan (the second channel's previous value) — and not with
its own final value `0`, so the second yielded tuple is `(10, 20)` where
self-padding would give `(0, 20)`. -/
theorem lerpsiter_pad_cex :
    lerpsRun 999 [[0], [10, 20, 30]] = [[0, 10], [10, 20], [10, 30]] ∧
    ([[0, 10], [10, 20], [10, 30]] : List (List Nat)) ≠
      [[0, 10], [0, 20], [0, 30]] := by decide

/-- One axis of pygame `Rect.clamp` lands inside the clamping interval
whenever the width fits. -/
theorem clampAxis_bounds (x w cx cw : Int) (hw : w ≤ cw) :
    cx ≤ clampAxis x w cx cw ∧ clampAxis x w cx cw + w ≤ cx + cw := by
  unfold clampAxis
  by_cases h1 : cw ≤ w
  · rw [if_pos h1]
    have heq : w = cw := le_antisymm hw h1
    subst heq
    rw [Int.add_sub_cancel]
    omega
  · rw [if_neg h1]
    by_cases h2 : x < cx
    · rw [if_pos h2]
      omega
    · rw [if_neg h2]
      by_cases h3 : cx + cw < x + w
      · rw [if_pos h3]
        omega
      · rw [if_neg h3]
        omega

/-- `Rect.random` keeps the sampled box of the requested size and fully
inside the spawn rectangle, whatever the sample was. -/
theorem rect_random_inside (size : Int × Int) (inside : PRect) (sx sy : Int)
    (hw : size.1 ≤ inside.w) (hh : size.2 ≤ inside.h) :
    inside.x ≤ (rectRandom size inside sx sy).x ∧
    (rectRandom size inside sx sy).x + (rectRandom size inside sx sy).w ≤
      inside.x + inside.w ∧
    inside.y ≤ (rectRandom size inside sx sy).y ∧
    (rectRandom size inside sx sy).y + (rectRandom size inside sx sy).h ≤
      inside.y + inside.h ∧
    (rectRandom size inside sx sy).w = size.1 ∧
    (rectRandom size inside sx sy).h = size.2 := by
  obtain ⟨h1, h2⟩ := clampAxis_bounds sx size.1 inside.x inside.w hw
  obtain ⟨h3, h4⟩ := clampAxis_bounds sy size.2 inside.y inside.h hh
  exact ⟨h1, h2, h3, h4, rfl, rfl⟩

/-- The placement loop puts every box inside the spawn rectangle, one sample
each, consulting nothing else. -/
theorem placeLoop_inside (inside : PRect) (samples : Nat → Int × Int) :
    ∀ (sizes : List (Int × Int)) (i : Nat),
      (∀ p ∈ sizes, 0 ≤ p.1 ∧ p.1 ≤ inside.w ∧ 0 ≤ p.2 ∧ p.2 ≤ inside.h) →
      ∀ r ∈ placeLoop inside samples i sizes,
        inside.x ≤ r.x ∧ r.x + r.w ≤ inside.x + inside.w ∧
        inside.y ≤ r.y ∧ r.y + r.h ≤ inside.y + inside.h
  | [], i, _, r, hr => absurd hr (List.not_mem_nil r)
  | sz :: rest, i, hfit, r, hr => by
    rcases List.mem_cons.mp hr with h | h
    · subst h
      obtain ⟨_, hw, _, hh⟩ := hfit sz (List.mem_cons_self _ _)
      obtain ⟨h1, h2, h3, h4, _, _⟩ :=
        rect_random_inside sz inside (samples i).1 (samples i).2 hw hh
      exact ⟨h1, h2, h3, h4⟩
    · exact placeLoop_inside inside samples rest (i + 1)
        (fun p hp => hfit p (List.mem_cons_of_mem _ hp)) r h

/-- C8 amended: `do_spawn` places each enemy group by a single uniform
sample of its top-left corner, clamped to lie fully inside the spawn
rectangle; the placement consults no already-placed boxes (the model takes
none as input), so no collision test and no re-sampling occur. -/
theorem do_spawn_single_sample (sizes : List (Int × Int)) (inside : PRect)
    (samples : Nat → Int × Int)
    (hfit : ∀ p ∈ sizes, 0 ≤ p.1 ∧ p.1 ≤ inside.w ∧ 0 ≤ p.2 ∧ p.2 ≤ inside.h) :
    ∀ r ∈ doSpawnPlacements sizes inside samples,
      inside.x ≤ r.x ∧ r.x + r.w ≤ inside.x + inside.w ∧
      inside.y ≤ r.y ∧ r.y + r.h ≤ inside.y + inside.h :=
  placeLoop_inside inside samples sizes 0 hfit

/-- Witness for the amended C8: a 10 by 10 box sampled at the origin of a
100 by 100 spawn rectangle stays inside it. -/
theorem do_spawn_single_sample_witness :
    (0 : Int) ≤ (⟨0, 0, 10, 10⟩ : PRect).x ∧
    (⟨0, 0, 10, 10⟩ : PRect).x + (⟨0, 0, 10, 10⟩ : PRect).w ≤ (0 : Int) + 100 ∧
    (0 : Int) ≤ (⟨0, 0, 10, 10⟩ : PRect).y ∧
    (⟨0, 0, 10, 10⟩ : PRect).y + (⟨0, 0, 10, 10⟩ : PRect).h ≤ (0 : Int) + 100 :=
  do_spawn_single_sample [(10, 10)] ⟨0, 0, 100, 100⟩ (fun _ => (0, 0))
    (by decide) ⟨0, 0, 10, 10⟩ (by decide)

/-- Counterexample to C8 as stated: the code's placement is the first sample
even when it collides with an already-placed enemy box, while the
rejection-sampling process the spec describes re-samples and lands on the
second, collision-free sample. -/
theorem rect_random_no_resample_cex :
    rectRandom (10, 10) ⟨0, 0, 100, 100⟩ 0 0 = ⟨0, 0, 10, 10⟩ ∧
    colliderect ⟨0, 0, 10, 10⟩ ⟨0, 0, 100, 50⟩ = true ∧
    specPlacement [⟨0, 0, 100, 50⟩] (10, 10) ⟨0, 0, 100, 100⟩
      (fun i => if i = 0 then (0, 0) else (0, 60)) 0 1 = ⟨0, 60, 10, 10⟩ ∧
    (⟨0, 0, 10, 10⟩ : PRect) ≠ ⟨0, 60, 10, 10⟩ := by decide

end ZPype
